import Mathlib

/-!
Verification of the statement-classification and transaction-scoped
capture/flush engine of the gostry repository, shallowly embedded in Lean.
Strings are modelled as `List Char` (Go iterates identifiers rune by rune);
top-level operations wrap them back into `String`.
-/

namespace Gostry

/-! ## Character classes

`uniSpaceChars` models Go's `unicode.IsSpace` (the Unicode White_Space
property), used by `strings.TrimSpace` and by `unicode.IsSpace` in
`StripAlias`.  `reSpaceC` models the regexp class `\s` of Go's RE2
(`[\t\n\f\r ]`), used by the DML classifier's patterns. -/

def uniSpaceChars : List Char :=
  ['\t', '\n', Char.ofNat 11, Char.ofNat 12, '\r', ' ',
   Char.ofNat 0x85, Char.ofNat 0xA0, Char.ofNat 0x1680,
   Char.ofNat 0x2000, Char.ofNat 0x2001, Char.ofNat 0x2002, Char.ofNat 0x2003,
   Char.ofNat 0x2004, Char.ofNat 0x2005, Char.ofNat 0x2006, Char.ofNat 0x2007,
   Char.ofNat 0x2008, Char.ofNat 0x2009, Char.ofNat 0x200A,
   Char.ofNat 0x2028, Char.ofNat 0x2029, Char.ofNat 0x202F,
   Char.ofNat 0x205F, Char.ofNat 0x3000]

def isUniSpace (c : Char) : Bool := uniSpaceChars.contains c

def reSpaceC (c : Char) : Bool :=
  c = '\t' || c = '\n' || c = Char.ofNat 12 || c = '\r' || c = ' '

/-- ASCII word character, as in RE2's `\b` / `\w` (`[0-9A-Za-z_]`). -/
def isWordChar (c : Char) : Bool :=
  ('0' ≤ c && c ≤ '9') || ('a' ≤ c && c ≤ 'z') || ('A' ≤ c && c ≤ 'Z') || c = '_'

/-- Simple case folding used by RE2's `(?i)`: ASCII upper to lower, plus the
two non-ASCII characters that fold onto ASCII letters (KELVIN SIGN and
LATIN SMALL LETTER LONG S). -/
def foldC (c : Char) : Char :=
  if 'A' ≤ c && c ≤ 'Z' then Char.ofNat (c.toNat + 32)
  else if c = Char.ofNat 0x212A then 'k'
  else if c = Char.ofNat 0x17F then 's'
  else c

/-! ## TrimSpace (`strings.TrimSpace`) -/

def trimLeftU (s : List Char) : List Char := s.dropWhile isUniSpace

/-- `strings.TrimSpace`: drop Unicode white space from both ends. -/
def trimU (s : List Char) : List Char :=
  ((s.dropWhile isUniSpace).reverse.dropWhile isUniSpace).reverse

/-! ## SplitQualified (`ident.SplitQualified` / `splitQualifiedIdentifier`)

One step of the Go loop: a `"` inside quotes followed by another `"` emits a
literal quote and skips both; any other `"` toggles the quote state; an
unquoted `.` ends the current part (trimmed); everything else is buffered.
The final buffer is always emitted as a (trimmed) part. -/

def splitLoop : List Char → List Char → Bool → List (List Char) → List (List Char)
  | [], buf, _, acc => acc ++ [trimU buf]
  | '"' :: '"' :: rest, buf, true, acc => splitLoop rest (buf ++ ['"']) true acc
  | '"' :: rest, buf, inQ, acc => splitLoop rest buf (!inQ) acc
  | '.' :: rest, buf, inQ, acc =>
    if inQ then splitLoop rest (buf ++ ['.']) inQ acc
    else splitLoop rest [] false (acc ++ [trimU buf])
  | c :: rest, buf, inQ, acc => splitLoop rest (buf ++ [c]) inQ acc

def splitQualifiedL (s : List Char) : List (List Char) :=
  let t := trimU s
  if t = [] then [] else splitLoop t [] false []

def SplitQualified (s : String) : List String :=
  (splitQualifiedL s.data).map String.mk

/-! ## Quote / QuoteQualified (`ident.Quote`, `ident.QuoteQualified`) -/

/-- `strings.ReplaceAll part "\"" "\"\""`. -/
def escQuotes : List Char → List Char
  | [] => []
  | c :: r => if c = '"' then '"' :: '"' :: escQuotes r else c :: escQuotes r

def quoteL (p : List Char) : List Char := '"' :: (escQuotes p ++ ['"'])

/-- `strings.Join(quoted, ".")`. -/
def joinDot : List (List Char) → List Char
  | [] => []
  | [p] => p
  | p :: ps => p ++ '.' :: joinDot ps

def quoteQualifiedL (ps : List (List Char)) : List Char :=
  joinDot (ps.map quoteL)

def QuoteQualified (ps : List String) : String :=
  if ps = [] then "" else String.mk (quoteQualifiedL (ps.map String.data))

/-! ## HistoryParts (`ident.HistoryParts` / `historyIdentifierParts`) -/

def HistoryParts (base suffix : String) : List String :=
  let parts := SplitQualified base
  if h : parts = [] then
    if suffix = "" then [] else [suffix]
  else
    parts.dropLast ++ [parts.getLast h ++ suffix]

/-! ## BaseTableName (`ident.BaseTableName`) -/

def BaseTableName (s : String) : String :=
  match SplitQualified s with
  | [] => String.mk (trimU s.data)
  | p :: ps => (p :: ps).getLast (by simp)

/-! ## QualifiedRegclassLiteral (`ident.QualifiedRegclassLiteral`) -/

def escSquotes : List Char → List Char
  | [] => []
  | c :: r => if c = '\'' then '\'' :: '\'' :: escSquotes r else c :: escSquotes r

def QualifiedRegclassLiteral (ps : List String) : String :=
  if ps = [] then "''"
  else String.mk ('\'' :: (escSquotes (QuoteQualified ps).data ++ ['\'']))

/-! ## StripAlias (`ident.StripAlias`)

Trim, `strings.TrimRight(s, ",")`, then scan with a quote flag and cut at
the first unquoted `unicode.IsSpace` rune, returning the trimmed prefix;
if no such rune exists the whole (trimmed, comma-stripped) text is kept. -/

/-- `strings.TrimRight(s, ",")`: drop every trailing comma. -/
def dropTrailingCommas (s : List Char) : List Char :=
  (s.reverse.dropWhile (fun c => c = ',')).reverse

/-- The scanning loop of `StripAlias`: `seen` accumulates the runes before
the current position; at an unquoted space the accumulated prefix is
returned. -/
def stripAliasCut : List Char → Bool → List Char → Option (List Char)
  | [], _, _ => none
  | c :: rest, inQ, seen =>
    if c = '"' then stripAliasCut rest (!inQ) (seen ++ [c])
    else if !inQ && isUniSpace c then some seen
    else stripAliasCut rest inQ (seen ++ [c])

def stripAliasL (s : List Char) : List Char :=
  let t := dropTrailingCommas (trimU s)
  match stripAliasCut t false [] with
  | some pre => trimU pre
  | none => t

def StripAlias (s : String) : String := String.mk (stripAliasL s.data)

/-! ## The DML classifier (`query.ParseDML`, file `internal/query/dml.go`)

The three patterns

  reInsert = `(?is)^\s*(?:with\b.*?\)\s*)?insert\s+into\s+([^\s(]+)`
  reUpdate = `(?is)^\s*(?:with\b.*?\)\s*)?update\s+([^\s]+(?:\s+(?:as\s+)?[^\s]+)?)\s+set\b`
  reDelete = `(?is)^\s*(?:with\b.*?\)\s*)?delete\s+from\s+([^\s]+(?:\s+(?:as\s+)?[^\s]+)?)`

are hand-translated into parsing functions with RE2's leftmost-first
preference order (the optional CTE prologue is preferred, its `.*?` is
lazy, the optional alias group is preferred, `as`-prefixed first).  All
side steps (`\s*`, `\s+`, `[^\s]+`, literal keywords) are deterministic
because every continuation after them starts with a character of the
complementary class. -/

/-- Case-insensitive literal match: consume `ks` (a lowercase keyword)
from `s`, returning the consumed original runes and the rest. -/
def kwCI : List Char → List Char → Option (List Char × List Char)
  | [], s => some ([], s)
  | _ :: _, [] => none
  | k :: ks, c :: cs =>
    if foldC c = k then
      match kwCI ks cs with
      | some (u, r) => some (c :: u, r)
      | none => none
    else none

/-- `\s*` / `\s+` (RE2 space class): maximal run, returned with the rest. -/
def reSpaces (s : List Char) : List Char × List Char :=
  (s.takeWhile reSpaceC, s.dropWhile reSpaceC)

/-- `[^\s]+`: maximal run of non-space runes. -/
def nonSpaceTok (s : List Char) : List Char × List Char :=
  (s.takeWhile (fun c => !reSpaceC c), s.dropWhile (fun c => !reSpaceC c))

/-- `[^\s(]+`: maximal run of runes that are neither space nor `(`. -/
def insertTok (s : List Char) : List Char × List Char :=
  (s.takeWhile (fun c => !reSpaceC c && !(c = '(')),
   s.dropWhile (fun c => !reSpaceC c && !(c = '(')))

/-- `\b` at the boundary between a word character and the rest. -/
def wordBoundary (s : List Char) : Bool :=
  match s with
  | [] => true
  | c :: _ => !isWordChar c

/-- `\s+set\b`, the tail of `reUpdate` after the capture group. -/
def setAfter (s : List Char) : Bool :=
  let sp := reSpaces s
  if sp.1 = [] then false
  else
    match kwCI "set".data sp.2 with
    | some (_, r2) => wordBoundary r2
    | none => false

/-- The capture group `[^\s]+(?:\s+(?:as\s+)?[^\s]+)?` followed by `tail`,
with `tok1` the already-consumed `[^\s]+` and `r3` the position after it.
Alternatives in RE2 preference order: alias with `as`, alias without `as`,
no alias. -/
def captureWithAlias (tok1 : List Char) (r3 : List Char)
    (tail : List Char → Bool) : Option (List Char) :=
  let branchAlias : Option (List Char) :=
    let sp2 := reSpaces r3
    if sp2.1 = [] then none
    else
      let branchAs : Option (List Char) :=
        match kwCI "as".data sp2.2 with
        | some (asC, r5) =>
          let sp3 := reSpaces r5
          if sp3.1 = [] then none
          else
            let t2 := nonSpaceTok sp3.2
            if t2.1 = [] then none
            else if tail t2.2 then some (tok1 ++ sp2.1 ++ asC ++ sp3.1 ++ t2.1)
            else none
        | none => none
      match branchAs with
      | some cap => some cap
      | none =>
        let t2 := nonSpaceTok sp2.2
        if t2.1 = [] then none
        else if tail t2.2 then some (tok1 ++ sp2.1 ++ t2.1) else none
  match branchAlias with
  | some cap => some cap
  | none => if tail r3 then some tok1 else none

/-- `insert\s+into\s+([^\s(]+)`. -/
def insertTail (s : List Char) : Option (List Char) :=
  match kwCI "insert".data s with
  | none => none
  | some (_, r1) =>
    let sp := reSpaces r1
    if sp.1 = [] then none
    else
      match kwCI "into".data sp.2 with
      | none => none
      | some (_, r2) =>
        let sp2 := reSpaces r2
        if sp2.1 = [] then none
        else
          let tok := insertTok sp2.2
          if tok.1 = [] then none else some tok.1

/-- `update\s+([^\s]+(?:\s+(?:as\s+)?[^\s]+)?)\s+set\b`. -/
def updateTail (s : List Char) : Option (List Char) :=
  match kwCI "update".data s with
  | none => none
  | some (_, r1) =>
    let sp := reSpaces r1
    if sp.1 = [] then none
    else
      let t1 := nonSpaceTok sp.2
      if t1.1 = [] then none else captureWithAlias t1.1 t1.2 setAfter

/-- `delete\s+from\s+([^\s]+(?:\s+(?:as\s+)?[^\s]+)?)`. -/
def deleteTail (s : List Char) : Option (List Char) :=
  match kwCI "delete".data s with
  | none => none
  | some (_, r1) =>
    let sp := reSpaces r1
    if sp.1 = [] then none
    else
      match kwCI "from".data sp.2 with
      | none => none
      | some (_, r2) =>
        let sp2 := reSpaces r2
        if sp2.1 = [] then none
        else
          let t1 := nonSpaceTok sp2.2
          if t1.1 = [] then none
          else captureWithAlias t1.1 t1.2 (fun _ => true)

/-- The lazy `.*?\)\s*` of the CTE prologue: positions for the `)` are
tried left to right; after it, spaces are skipped and the statement tail
must match. -/
def cteLoop (tail : List Char → Option (List Char)) : List Char → Option (List Char)
  | [] => none
  | c :: rest =>
    if c = ')' then
      match tail (reSpaces rest).2 with
      | some v => some v
      | none => cteLoop tail rest
    else cteLoop tail rest

/-- `^\s*(?:with\b.*?\)\s*)?` followed by a statement tail. -/
def withPrologue (tail : List Char → Option (List Char)) (s : List Char) :
    Option (List Char) :=
  let s1 := (reSpaces s).2
  match kwCI "with".data s1 with
  | some (_, r) =>
    if wordBoundary r then
      match cteLoop tail r with
      | some v => some v
      | none => tail s1
    else tail s1
  | none => tail s1

/-- `(?is)\breturning\b` holding at the head of `s`. -/
def returningHere (s : List Char) : Bool :=
  match kwCI "returning".data s with
  | some (_, r) => wordBoundary r
  | none => false

/-- Scan for `\breturning\b` anywhere; `prevW` tracks whether the previous
rune was a word character (false at the start of the text). -/
def hasRetAux : Bool → List Char → Bool
  | _, [] => false
  | prevW, c :: rest => (!prevW && returningHere (c :: rest)) || hasRetAux (isWordChar c) rest

/-- `reReturning.MatchString`. -/
def hasReturningWord (s : List Char) : Bool := hasRetAux false s

/-- The classifier's output (`query.DML`). -/
structure DML where
  op : String
  table : String
  hasReturning : Bool
deriving DecidableEq, Repr

/-- `query.ParseDML`: trim, try INSERT then UPDATE then DELETE, strip the
alias from the captured target, and search the trimmed statement for a
`returning` word. -/
def ParseDML (q : String) : Option DML :=
  let qs := trimU q.data
  match withPrologue insertTail qs with
  | some cap => some ⟨"INSERT", String.mk (stripAliasL cap), hasReturningWord qs⟩
  | none =>
    match withPrologue updateTail qs with
    | some cap => some ⟨"UPDATE", String.mk (stripAliasL cap), hasReturningWord qs⟩
    | none =>
      match withPrologue deleteTail qs with
      | some cap => some ⟨"DELETE", String.mk (stripAliasL cap), hasReturningWord qs⟩
      | none => none

/-! ## AppendReturningAll (`query.AppendReturningAll`)

The Go loop repeatedly drops a trailing `;` and re-trims.  On the reversed
(already trimmed) text this is a scan that consumes `;` runes and, once one
has been seen, intervening white space. -/

def dropTrailingSemis : Bool → List Char → Bool × List Char
  | flag, [] => (flag, [])
  | flag, c :: rest =>
    if c = ';' then dropTrailingSemis true rest
    else if flag && isUniSpace c then dropTrailingSemis true rest
    else (flag, c :: rest)

def AppendReturningAll (q : String) : String × Bool :=
  let trimmed := trimU q.data
  if trimmed = [] then (q, false)
  else
    let r := dropTrailingSemis false trimmed.reverse
    let core := r.2.reverse
    if core = [] then (q, false)
    else (String.mk (core ++ "\nRETURNING *".data ++ (if r.1 then [';'] else [])), true)

/-! ## The capture buffer (`buffer.Buffer`)

The mutex only guards the slice; the functional content is the slice
itself.  `Drain` hands the accumulated slice out and leaves `nil`;
`Reset` is `Drain` with the result discarded. -/

def bufNew {α : Type} : List α := []

def bufAdd {α : Type} (b : List α) (t : α) : List α := b ++ [t]

def bufDrain {α : Type} (b : List α) : List α × List α := (b, [])

def bufReset {α : Type} (b : List α) : List α := (bufDrain b).2

/-! ## Row materializer (`scanAll`, `rowToMap`)

The driver (`*sql.Rows`) is external; it is modelled by `RowsModel`: the
column-name result, the sequence of rows (each either a scanned value
vector or a scan error), and the value of `rows.Err()` after iteration.
A driver value is either a byte slice or some other value of an abstract
type `V`; `json.Unmarshal` is external and is passed in as a partial
decoding function. -/

/-- Values a row image can hold: a non-byte driver value, a decoded JSON
document, or the string fallback for undecodable bytes. -/
inductive Val (V : Type) where
  | prim (v : V)
  | jsonV (v : V)
  | str (s : String)
deriving DecidableEq, Repr

/-- A scanned driver value: a byte slice or any other value. -/
inductive RawVal (V : Type) where
  | bytes (b : String)
  | val (v : V)
deriving DecidableEq, Repr

/-- A row image: the Go `map[string]any`, modelled as an association list
with insert-replaces-existing-key semantics. -/
abbrev RowImage (V : Type) := List (String × Val V)

def mapInsert {V : Type} : RowImage V → String → Val V → RowImage V
  | [], k, v => [(k, v)]
  | (k0, v0) :: rest, k, v =>
    if k0 = k then (k0, v) :: rest else (k0, v0) :: mapInsert rest k v

def mapLookup {V : Type} : RowImage V → String → Option (Val V)
  | [], _ => none
  | (k0, v0) :: rest, k => if k0 = k then some v0 else mapLookup rest k

/-- `rowToMap`: pair column names with values; byte slices are decoded as
JSON when possible, else kept as their string form. -/
def rowToMapGo {V : Type} (jsonDec : String → Option V)
    (cols : List String) (vals : List (RawVal V)) : RowImage V :=
  (cols.zip vals).foldl
    (fun m cv =>
      mapInsert m cv.1
        (match cv.2 with
         | .bytes b =>
           match jsonDec b with
           | some j => Val.jsonV j
           | none => Val.str b
         | .val v => Val.prim v))
    []

/-- The external `*sql.Rows` behaviour. -/
structure RowsModel (V : Type) where
  colsRes : Except String (List String)
  rows : List (Except String (List (RawVal V)))
  errAfter : Option String
deriving Repr

/-- The row loop of `scanAll`: each `rows.Next()`/`rows.Scan` step either
yields a value vector or fails, aborting the whole scan. -/
def scanRows {V : Type} (jsonDec : String → Option V) (cols : List String) :
    List (Except String (List (RawVal V))) → Except String (List (RowImage V))
  | [] => .ok []
  | .error e :: _ => .error e
  | .ok vals :: rest =>
    match scanRows jsonDec cols rest with
    | .error e => .error e
    | .ok out => .ok (rowToMapGo jsonDec cols vals :: out)

/-- `scanAll`: columns, then all rows, then `rows.Err()`, then the
empty-result check; returns the row images together with their count. -/
def scanAll {V : Type} (jsonDec : String → Option V) (rm : RowsModel V) :
    Except String (List (RowImage V) × Nat) :=
  match rm.colsRes with
  | .error e => .error e
  | .ok cols =>
    match scanRows jsonDec cols rm.rows with
    | .error e => .error e
    | .ok out =>
      match rm.errAfter with
      | some e => .error e
      | none => if out.isEmpty then .error "sql: no rows in result set" else .ok (out, out.length)

/-! ## `sql.Result` (`affectedResult`, `newAffectedRows`) -/

instance {ε α : Type} [DecidableEq ε] [DecidableEq α] : DecidableEq (Except ε α) :=
  fun x y =>
    match x, y with
    | .ok a, .ok b =>
      if h : a = b then isTrue (by rw [h]) else isFalse (by simp [h])
    | .error a, .error b =>
      if h : a = b then isTrue (by rw [h]) else isFalse (by simp [h])
    | .ok _, .error _ => isFalse (by simp)
    | .error _, .ok _ => isFalse (by simp)

structure SqlResult where
  lastInsertId : Except String Int
  rowsAffected : Except String Int
deriving DecidableEq, Repr

/-- `newAffectedRows`: `RowsAffected` reports `n`; `LastInsertId` is the
unsupported generated-key retrieval. -/
def newAffectedRows (n : Nat) : SqlResult :=
  { lastInsertId := .error "not supported", rowsAffected := .ok (n : Int) }

/-! ## Capture entries and the transaction wrapper (`tx`, file part_008) -/

/-- Context metadata (operator, trace id, reason), as read by
`extractMeta`. -/
structure Meta where
  operator : String
  traceID : String
  reason : String
deriving DecidableEq, Repr

/-- A buffered capture entry (`entry`). -/
structure Entry (V : Type) where
  table : String
  op : String
  sql : String := ""
  args : List V := []
  before : Option (RowImage V) := none
  after : Option (RowImage V) := none
  meta : Meta
deriving DecidableEq, Repr

/-- The external collaborators of one `ExecContext` call: the context
metadata, the underlying `Tx.ExecContext` outcome, the underlying
`Tx.QueryContext` outcome, and `json.Unmarshal`. -/
structure ExecEnv (V : Type) where
  meta : Meta
  execOutcome : Except String SqlResult
  queryOutcome : Except String (RowsModel V)
  jsonDec : String → Option V

/-- The capture entry built for one returned row: the row image goes to
`before` for DELETE and to `after` otherwise. -/
def mkCaptureEntry {V : Type} (dml : DML) (me : Meta) (m : RowImage V) : Entry V :=
  if dml.op = "DELETE" then
    { table := dml.table, op := dml.op, meta := me, before := some m }
  else
    { table := dml.table, op := dml.op, meta := me, after := some m }

/-- `tx.ExecContext`: classify; unrecognized statements pass through;
recognized statements without RETURNING pass through and buffer a minimal
entry on success; recognized statements with RETURNING are re-issued as a
query, all rows are materialized and buffered one entry per row, and the
result carries the row count. -/
def txExecContext {V : Type} (env : ExecEnv V) (buf : List (Entry V))
    (q : String) (args : List V) : List (Entry V) × Except String SqlResult :=
  match ParseDML q with
  | some dml =>
    if !dml.hasReturning then
      match env.execOutcome with
      | .ok res =>
        (bufAdd buf { table := dml.table, op := dml.op, sql := q, args := args,
                      meta := env.meta }, .ok res)
      | .error e => (buf, .error e)
    else
      match env.queryOutcome with
      | .error e => (buf, .error e)
      | .ok rm =>
        match scanAll env.jsonDec rm with
        | .error e => (buf, .error ("gostry: failed to scan rows: " ++ e))
        | .ok (ms, n) =>
          (ms.foldl (fun b m => bufAdd b (mkCaptureEntry dml env.meta m)) buf,
           .ok (newAffectedRows n))
  | none => (buf, env.execOutcome)

/-! ## The flush path (`tx.flush`, `tx.Commit`) -/

/-- One history INSERT as issued by `flush` (statement text plus the seven
bound parameters). -/
structure InsertCall (V : Type) where
  stmt : String
  id : Option (Val V)
  op : String
  operator : String
  traceID : String
  reason : String
  beforeJSON : String
  afterJSON : String
deriving DecidableEq, Repr

/-- External collaborators of `flush`: the redaction map, the configured
suffix and skip option, `inflection.Singular`, `json.Marshal`, and the
outcome of each history INSERT (`none` = success). -/
structure FlushEnv (V : Type) where
  redact : List (String × (String → Val V → Val V))
  historySuffix : String
  skipIfNotExists : Bool
  singular : String → String
  marshal : Option (RowImage V) → Except String String
  execInsert : InsertCall V → Option String

def redactLookup {V : Type} :
    List (String × (String → Val V → Val V)) → String → Option (String → Val V → Val V)
  | [], _ => none
  | (k0, f) :: rest, k => if k0 = k then some f else redactLookup rest k

/-- `Handler.applyRedact`: identity on nil maps and with an empty redact
map, otherwise apply the per-key function where registered. -/
def applyRedact {V : Type} (rm : List (String × (String → Val V → Val V))) :
    Option (RowImage V) → Option (RowImage V)
  | none => none
  | some m =>
    if rm.isEmpty then some m
    else some (m.map (fun kv =>
      match redactLookup rm kv.1 with
      | some fn => (kv.1, fn kv.1 kv.2)
      | none => kv))

/-- `pickID`: prefer `before["id"]`, then `after["id"]`, then the
`<singular base table>_id` key in `before` then `after`, else nothing. -/
def pickID {V : Type} (singular : String → String) (table : String)
    (before after : Option (RowImage V)) : Option (Val V) :=
  let look : Option (RowImage V) → String → Option (Val V) := fun om k =>
    match om with
    | none => none
    | some m => mapLookup m k
  match look before "id" with
  | some v => some v
  | none =>
    match look after "id" with
    | some v => some v
    | none =>
      let base := BaseTableName table
      let singularID := singular base ++ "_id"
      match look before singularID with
      | some v => some v
      | none => look after singularID

/-- The unconditional history INSERT text (`fmt.Sprintf` in `flush`). -/
def historyInsertStmt (hi : String) : String :=
  "\nINSERT INTO " ++ hi ++
  " (id, operation, operated_at, operated_by, trace_id, reason, before, after)\nVALUES ($1, $2, now(), $3, $4, $5, $6, $7)\n"

/-- The guarded variant used when `SkipIfNotExists` is set. -/
def historyInsertStmtSkip (regclass hi : String) : String :=
  "\nDO $$\nBEGIN\n    IF to_regclass(" ++ regclass ++
  ") IS NOT NULL THEN\n        INSERT INTO " ++ hi ++
  " (id, operation, operated_at, operated_by, trace_id, reason, before, after)\n        VALUES ($1, $2, now(), $3, $4, $5, $6, $7);\n    END IF;\nEND $$;\n"

/-- The per-entry body of the `flush` loop: redact, pick the id, marshal
both images, compute the quoted history identifier, and execute the
INSERT.  Error texts approximate `fmt.Errorf`'s formatting. -/
def entryStep {V : Type} (env : FlushEnv V) (e : Entry V) : Except String (InsertCall V) :=
  let before := applyRedact env.redact e.before
  let after := applyRedact env.redact e.after
  let id := pickID env.singular e.table before after
  match env.marshal before with
  | .error m => .error ("gostry: failed to marshal before: " ++ m)
  | .ok beforeJSON =>
    match env.marshal after with
    | .error m => .error ("gostry: failed to marshal after: " ++ m)
    | .ok afterJSON =>
      let hparts := HistoryParts e.table env.historySuffix
      let hident := QuoteQualified hparts
      if hident = "" then
        .error ("gostry: invalid history table identifier for " ++ e.table)
      else
        let stmt :=
          if env.skipIfNotExists then
            historyInsertStmtSkip (QualifiedRegclassLiteral hparts) hident
          else historyInsertStmt hident
        let call : InsertCall V :=
          ⟨stmt, id, e.op, e.meta.operator, e.meta.traceID, e.meta.reason,
           beforeJSON, afterJSON⟩
        match env.execInsert call with
        | some err => .error ("gostry: failed to insert history table: " ++ err)
        | none => .ok call

/-- The transaction wrapper's observable state: the capture buffer and the
history INSERTs executed so far. -/
structure TxState (V : Type) where
  buf : List (Entry V)
  written : List (InsertCall V)

/-- The entry loop of `flush`: stops at the first failing entry, keeping
the INSERTs already executed. -/
def flushLoop {V : Type} (env : FlushEnv V) :
    List (Entry V) → List (InsertCall V) → List (InsertCall V) × Option String
  | [], acc => (acc, none)
  | e :: rest, acc =>
    match entryStep env e with
    | .error m => (acc, some m)
    | .ok call => flushLoop env rest (acc ++ [call])

/-- `tx.flush`: drain the buffer first, then write the drained entries in
order until the first failure. -/
def txFlush {V : Type} (env : FlushEnv V) (st : TxState V) : TxState V × Option String :=
  let drained := bufDrain st.buf
  let rows := drained.1
  let st1 : TxState V := { st with buf := drained.2 }
  if rows.isEmpty then (st1, none)
  else
    let r := flushLoop env rows []
    ({ st1 with written := st1.written ++ r.1 }, r.2)


/-! ## Claim C4: the alias-stripping description

`stripAliasSpecOneComma` follows the claim's words literally (trim, drop
ONE trailing comma, cut at the first unquoted white-space run), while
`stripAliasSpecAllCommas` is the amended reading with all trailing commas
dropped and the cut expressed through the index of the first unquoted
space.  The source's `StripAlias` (`strings.TrimRight(s, ",")`) drops all
trailing commas, refuting the one-comma reading. -/

def dropOneTrailingComma (s : List Char) : List Char :=
  match s.reverse with
  | ',' :: r => r.reverse
  | _ => s

/-- Modelled from the spec sentence behind C4: trim, drop one trailing
comma, then cut at the first unquoted white-space run. -/
def stripAliasSpecOneComma (s : List Char) : List Char :=
  let t := dropOneTrailingComma (trimU s)
  match stripAliasCut t false [] with
  | some pre => trimU pre
  | none => t

/-- Index of the first unquoted white-space rune (quote-tracking). -/
def cutIdx : List Char → Bool → Option Nat
  | [], _ => none
  | c :: rest, inQ =>
    if c = '"' then (cutIdx rest (!inQ)).map (· + 1)
    else if !inQ && isUniSpace c then some 0
    else (cutIdx rest inQ).map (· + 1)

/-- The amended reading of C4's description: trim, drop all trailing
commas, cut before the first unquoted white-space rune (and trim the kept
prefix). -/
def stripAliasSpecAllCommas (s : List Char) : List Char :=
  let t := dropTrailingCommas (trimU s)
  match cutIdx t false with
  | some i => trimU (t.take i)
  | none => t

/-! ## Concrete witness environments -/

def c1EnvRows : RowsModel Nat :=
  { colsRes := Except.ok ["id"],
    rows := [Except.ok [RawVal.val 1], Except.ok [RawVal.val 2]],
    errAfter := none }

def c1Env : ExecEnv Nat :=
  { meta := { operator := "alice", traceID := "trace-1", reason := "demo" },
    execOutcome := Except.error "unused",
    queryOutcome := Except.ok c1EnvRows,
    jsonDec := fun _ => none }

def c3Env : FlushEnv Nat :=
  { redact := [],
    historySuffix := "_history",
    skipIfNotExists := false,
    singular := fun s => s,
    marshal := fun om =>
      match om with
      | some (("bad", _) :: _) => Except.error "boom"
      | _ => Except.ok "json",
    execInsert := fun _ => none }

def c3Entry1 : Entry Nat :=
  { table := "orders", op := "INSERT",
    after := some [("id", Val.prim 1)],
    meta := { operator := "alice", traceID := "trace-1", reason := "demo" } }

def c3Entry2 : Entry Nat :=
  { table := "orders", op := "DELETE",
    before := some [("bad", Val.prim 0)],
    meta := { operator := "alice", traceID := "trace-1", reason := "demo" } }

end Gostry

section SanityChecks
open Gostry

example : SplitQualified "public.orders" = ["public", "orders"] := by decide
example : SplitQualified "" = [] := by decide
example : SplitQualified "orders" = ["orders"] := by decide
example : HistoryParts "public.orders" "_history" = ["public", "orders_history"] := by decide
example : QuoteQualified ["public", "orders"] = "\"public\".\"orders\"" := by decide

example : ParseDML "INSERT INTO orders (id) VALUES ($1)" =
    some ⟨"INSERT", "orders", false⟩ := by decide
example : ParseDML "insert into public.orders (id)\nvalues ($1)\nreturning *" =
    some ⟨"INSERT", "public.orders", true⟩ := by decide
example : ParseDML "UPDATE orders o SET amount = amount + 1 WHERE id = $1" =
    some ⟨"UPDATE", "orders", false⟩ := by decide
example : ParseDML "WITH c AS (\n\tSELECT id FROM orders WHERE status = 'obsolete'\n) DELETE FROM public.orders o USING c WHERE o.id = c.id RETURNING o.id" =
    some ⟨"DELETE", "public.orders", true⟩ := by decide
example : ParseDML "SELECT * FROM orders" = none := by decide
example : ParseDML "UPDATE orders SET note='returning soon'" =
    some ⟨"UPDATE", "orders", true⟩ := by decide
example : ParseDML "UPDATE \"Sales\".\"Orders\" so SET status = $1 WHERE so.id = $2" =
    some ⟨"UPDATE", "\"Sales\".\"Orders\"", false⟩ := by decide
example : ParseDML "DELETE FROM public.orders WHERE created_at < now() - interval '1 day'" =
    some ⟨"DELETE", "public.orders", false⟩ := by decide

example : AppendReturningAll "INSERT INTO orders (id) VALUES ($1)" =
    ("INSERT INTO orders (id) VALUES ($1)\nRETURNING *", true) := by decide
example : AppendReturningAll "  UPDATE orders SET status='x'  " =
    ("UPDATE orders SET status='x'\nRETURNING *", true) := by decide
example : AppendReturningAll "DELETE FROM orders WHERE id=$1;" =
    ("DELETE FROM orders WHERE id=$1\nRETURNING *;", true) := by decide
example : AppendReturningAll "   " = ("   ", false) := by decide

example : SplitQualified "\"Sales\".\"Order Detail\"" = ["Sales", "Order Detail"] := by decide
example : SplitQualified "\"Sales\".\"Order.Detail\"" = ["Sales", "Order.Detail"] := by decide
example : SplitQualified "\"Sales\"\"Region\".\"Orders\"" = ["Sales\"Region", "Orders"] := by decide

example : ParseDML "WITH c AS (SELECT 1) INSERT INTO t (x) VALUES (1)" =
    some ⟨"INSERT", "t", false⟩ := by decide
example : ParseDML "WITH c AS (SELECT f(1)) DELETE FROM t" =
    some ⟨"DELETE", "t", false⟩ := by decide
example : ParseDML "delete from orders" = some ⟨"DELETE", "orders", false⟩ := by decide
example : ParseDML "DELETE FROM" = none := by decide
example : ParseDML "UPDATE orders AS o SET x=1" = some ⟨"UPDATE", "orders", false⟩ := by
  decide

end SanityChecks

namespace Gostry

/-! ## Facts about trimming -/

theorem dropWhile_head_not {p : Char → Bool} :
    ∀ {x : List Char} {c : Char} {r : List Char}, x.dropWhile p = c :: r → p c = false := by
  intro x
  induction x with
  | nil => intro c r h; simp [List.dropWhile] at h
  | cons a t ih =>
    intro c r h
    by_cases ha : p a = true
    · rw [List.dropWhile_cons, if_pos ha] at h; exact ih h
    · rw [List.dropWhile_cons, if_neg ha] at h
      cases h
      simpa using ha

theorem trimU_eq_rdrop (s : List Char) :
    trimU s = (s.dropWhile isUniSpace).rdropWhile isUniSpace := rfl

theorem dropWhile_trimU (s : List Char) :
    (trimU s).dropWhile isUniSpace = trimU s := by
  rw [trimU_eq_rdrop]
  set y := s.dropWhile isUniSpace with hy
  have hyd : y.dropWhile isUniSpace = y := List.dropWhile_idempotent _ _
  rcases h : y.rdropWhile isUniSpace with _ | ⟨c, r⟩
  · simp
  · have hpre : y.rdropWhile isUniSpace <+: y := List.rdropWhile_prefix _ _
    rw [h] at hpre
    obtain ⟨t, ht⟩ := hpre
    have hc : isUniSpace c = false := by
      rw [← ht, List.cons_append] at hyd
      by_cases hcs : isUniSpace c = true
      · rw [List.dropWhile_cons, if_pos hcs] at hyd
        have hlen : ((r ++ t).dropWhile isUniSpace).length = (c :: (r ++ t)).length :=
          congrArg List.length hyd
        have hle : ((r ++ t).dropWhile isUniSpace).length ≤ (r ++ t).length :=
          (List.dropWhile_suffix _).length_le
        rw [List.length_cons] at hlen
        omega
      · simpa using hcs
    simp [List.dropWhile_cons, hc]

theorem trimU_idem (s : List Char) : trimU (trimU s) = trimU s := by
  rw [trimU_eq_rdrop (trimU s), dropWhile_trimU, trimU_eq_rdrop]
  exact List.rdropWhile_idempotent _ _

theorem trimU_no_space_ends {s : List Char}
    (h1 : ∀ c, s.head? = some c → isUniSpace c = false)
    (h2 : ∀ c, s.getLast? = some c → isUniSpace c = false) :
    trimU s = s := by
  have hd : s.dropWhile isUniSpace = s := by
    cases s with
    | nil => rfl
    | cons a t =>
      have := h1 a rfl
      simp [List.dropWhile_cons, this]
  rw [trimU_eq_rdrop, hd, List.rdropWhile_eq_self_iff]
  intro hne
  have := h2 _ (List.getLast?_eq_getLast s hne)
  simp [this]

/-! ## Equations for the split scanner -/

theorem splitLoop_nil (buf : List Char) (inQ : Bool) (acc : List (List Char)) :
    splitLoop [] buf inQ acc = acc ++ [trimU buf] := rfl

theorem splitLoop_qq (rest buf : List Char) (acc : List (List Char)) :
    splitLoop ('"' :: '"' :: rest) buf true acc = splitLoop rest (buf ++ ['"']) true acc := rfl

theorem splitLoop_q_off (rest buf : List Char) (acc : List (List Char)) :
    splitLoop ('"' :: rest) buf false acc = splitLoop rest buf true acc := by
  have := splitLoop.eq_3 buf false acc rest (by intro r1 h1 h2; cases h2)
  simpa using this

theorem splitLoop_q_on {rest : List Char} (h : rest.head? ≠ some '"')
    (buf : List Char) (acc : List (List Char)) :
    splitLoop ('"' :: rest) buf true acc = splitLoop rest buf false acc := by
  have := splitLoop.eq_3 buf true acc rest
    (by intro r1 h1 _; exact h (by rw [h1]; rfl))
  simpa using this

theorem splitLoop_dot (rest buf : List Char) (inQ : Bool) (acc : List (List Char)) :
    splitLoop ('.' :: rest) buf inQ acc =
      if inQ then splitLoop rest (buf ++ ['.']) inQ acc
      else splitLoop rest [] false (acc ++ [trimU buf]) := by
  have := splitLoop.eq_4 buf inQ acc rest
  simpa using this

theorem splitLoop_other {c : Char} (hq : c ≠ '"') (hd : c ≠ '.')
    (rest buf : List Char) (inQ : Bool) (acc : List (List Char)) :
    splitLoop (c :: rest) buf inQ acc = splitLoop rest (buf ++ [c]) inQ acc :=
  splitLoop.eq_5 buf inQ acc c rest (fun h => hq h) (fun h => hd h)
    (fun _ h _ _ => hq h)

end Gostry

namespace Gostry

/-! ## The split-quote-split roundtrip -/

/-- Scanning the escaped body of a quoted part, in the in-quotes state,
writes exactly the part into the buffer and stops at the closing quote
(whose follower is not another quote). -/
theorem splitLoop_esc (p : List Char) :
    ∀ (rest buf : List Char) (acc : List (List Char)), rest.head? ≠ some '"' →
      splitLoop (escQuotes p ++ '"' :: rest) buf true acc =
        splitLoop rest (buf ++ p) false acc := by
  induction p with
  | nil =>
    intro rest buf acc h
    simpa using splitLoop_q_on h buf acc
  | cons c p ih =>
    intro rest buf acc h
    by_cases hc : c = '"'
    · subst hc
      have he : escQuotes ('"' :: p) = '"' :: '"' :: escQuotes p := by
        simp [escQuotes]
      rw [he, List.cons_append, List.cons_append, splitLoop_qq,
        ih rest (buf ++ ['"']) acc h, List.append_assoc]
      rfl
    · have he : escQuotes (c :: p) = c :: escQuotes p := by
        simp [escQuotes, hc]
      rw [he, List.cons_append]
      by_cases hd : c = '.'
      · subst hd
        rw [splitLoop_dot]
        simp only [if_true]
        rw [ih rest (buf ++ ['.']) acc h, List.append_assoc]
        rfl
      · rw [splitLoop_other hc hd, ih rest (buf ++ [c]) acc h, List.append_assoc]
        rfl

/-- Scanning the dot-joined quoted rendering of a part list appends, in
order, one trimmed part per original part. -/
theorem splitLoop_join :
    ∀ (ps : List (List Char)) (acc : List (List Char)), ps ≠ [] →
      splitLoop (joinDot (ps.map quoteL)) [] false acc = acc ++ ps.map trimU := by
  intro ps
  induction ps with
  | nil => intro acc h; exact absurd rfl h
  | cons p ps ih =>
    intro acc _
    cases ps with
    | nil =>
      have hj : joinDot ([p].map quoteL) = '"' :: (escQuotes p ++ ['"']) := rfl
      rw [hj, splitLoop_q_off]
      have : escQuotes p ++ ['"'] = escQuotes p ++ '"' :: [] := rfl
      rw [this, splitLoop_esc p [] [] acc (by simp)]
      simp [splitLoop_nil]
    | cons p2 ps2 =>
      have hj : joinDot ((p :: p2 :: ps2).map quoteL) =
          '"' :: (escQuotes p ++ '"' :: '.' :: joinDot ((p2 :: ps2).map quoteL)) := by
        simp [joinDot, quoteL]
      rw [hj, splitLoop_q_off,
        splitLoop_esc p ('.' :: joinDot ((p2 :: ps2).map quoteL)) [] acc (by simp),
        splitLoop_dot]
      rw [if_neg (by simp)]
      rw [ih (acc ++ [trimU ([] ++ p)]) (by simp)]
      simp

/-- Every part produced by the split scanner is trim-fixed (provided the
already-accumulated parts are). -/
theorem splitLoop_mem_trim (s buf : List Char) (inQ : Bool) (acc : List (List Char)) :
    (∀ x ∈ acc, trimU x = x) → ∀ x ∈ splitLoop s buf inQ acc, trimU x = x := by
  induction s, buf, inQ, acc using splitLoop.induct with
  | case1 buf inQ acc =>
    intro hacc x hx
    rcases List.mem_append.mp hx with h | h
    · exact hacc x h
    · rw [List.mem_singleton.mp h]; exact trimU_idem buf
  | case2 rest buf acc ih =>
    intro hacc
    rw [splitLoop_qq]
    exact ih hacc
  | case3 rest buf inQ acc hne ih =>
    intro hacc
    rw [splitLoop.eq_3 buf inQ acc rest hne]
    exact ih hacc
  | case4 rest buf acc ih =>
    intro hacc
    rw [splitLoop_dot, if_pos rfl]
    exact ih hacc
  | case5 rest buf inQ acc hneg ih =>
    intro hacc
    rw [splitLoop_dot, if_neg hneg]
    refine ih ?_
    intro x hx
    rcases List.mem_append.mp hx with h | h
    · exact hacc x h
    · rw [List.mem_singleton.mp h]; exact trimU_idem buf
  | case6 c rest buf inQ acc h1 h2 h3 ih =>
    intro hacc
    rw [splitLoop.eq_5 buf inQ acc c rest h2 h3 h1]
    exact ih hacc

/-- The split scanner never returns the empty list. -/
theorem splitLoop_ne_nil (s buf : List Char) (inQ : Bool) (acc : List (List Char)) :
    splitLoop s buf inQ acc ≠ [] := by
  induction s, buf, inQ, acc using splitLoop.induct with
  | case1 buf inQ acc => simp [splitLoop_nil]
  | case2 rest buf acc ih => rw [splitLoop_qq]; exact ih
  | case3 rest buf inQ acc hne ih => rw [splitLoop.eq_3 buf inQ acc rest hne]; exact ih
  | case4 rest buf acc ih => rw [splitLoop_dot, if_pos rfl]; exact ih
  | case5 rest buf inQ acc hneg ih => rw [splitLoop_dot, if_neg hneg]; exact ih
  | case6 c rest buf inQ acc h1 h2 h3 ih =>
    rw [splitLoop.eq_5 buf inQ acc c rest h2 h3 h1]; exact ih

theorem joinDot_quoted_ne_nil (x : List Char) (xs : List (List Char)) :
    joinDot ((x :: xs).map quoteL) ≠ [] := by
  cases xs with
  | nil => simp [joinDot, quoteL]
  | cons y ys => simp [joinDot, quoteL]

theorem joinDot_quoted_head (x : List Char) (xs : List (List Char)) :
    (joinDot ((x :: xs).map quoteL)).head? = some '"' := by
  cases xs with
  | nil => simp [joinDot, quoteL]
  | cons y ys => simp [joinDot, quoteL]

theorem quoteL_getLast (p : List Char) : (quoteL p).getLast? = some '"' := by
  have h : quoteL p = ('"' :: escQuotes p) ++ ['"'] := by simp [quoteL]
  rw [h, List.getLast?_append_of_ne_nil _ (by simp)]
  rfl

theorem joinDot_quoted_getLast (x : List Char) (xs : List (List Char)) :
    (joinDot ((x :: xs).map quoteL)).getLast? = some '"' := by
  induction xs generalizing x with
  | nil => simpa [joinDot] using quoteL_getLast x
  | cons y ys ih =>
    have hj : joinDot ((x :: y :: ys).map quoteL) =
        quoteL x ++ '.' :: joinDot ((y :: ys).map quoteL) := by
      simp [joinDot]
    rw [hj, List.getLast?_append_cons,
      show ('.' :: joinDot ((y :: ys).map quoteL)) =
        ['.'] ++ joinDot ((y :: ys).map quoteL) from rfl,
      List.getLast?_append_of_ne_nil _ (joinDot_quoted_ne_nil y ys)]
    exact ih y

/-- List-level roundtrip: splitting the quoted rendering of a split result
gives the split result back. -/
theorem splitQualifiedL_roundtrip (s : List Char) :
    splitQualifiedL (quoteQualifiedL (splitQualifiedL s)) = splitQualifiedL s := by
  by_cases h : trimU s = []
  · have h1 : splitQualifiedL s = [] := by simp [splitQualifiedL, h]
    rw [h1]
    decide
  · have hsplit : splitQualifiedL s = splitLoop (trimU s) [] false [] := by
      simp [splitQualifiedL, h]
    rcases hps : splitQualifiedL s with _ | ⟨p, ps⟩
    · rw [hsplit] at hps
      exact absurd hps (splitLoop_ne_nil _ _ _ _)
    · have htrimfix : ∀ x ∈ p :: ps, trimU x = x := by
        rw [← hps, hsplit]
        exact splitLoop_mem_trim _ _ _ _ (by intro x hx; cases hx)
      have hq : quoteQualifiedL (p :: ps) = joinDot ((p :: ps).map quoteL) := rfl
      have htq : trimU (joinDot ((p :: ps).map quoteL)) = joinDot ((p :: ps).map quoteL) := by
        refine trimU_no_space_ends ?_ ?_
        · intro c hc
          rw [joinDot_quoted_head] at hc
          cases hc
          decide
        · intro c hc
          rw [joinDot_quoted_getLast] at hc
          cases hc
          decide
      rw [hq]
      show splitQualifiedL (joinDot ((p :: ps).map quoteL)) = p :: ps
      rw [splitQualifiedL, htq]
      simp only [if_neg (joinDot_quoted_ne_nil p ps)]
      rw [splitLoop_join (p :: ps) [] (by simp)]
      have : (p :: ps).map trimU = (p :: ps).map id := List.map_congr_left htrimfix
      simpa using this

/-- C2: for every identifier string s, splitting, quoting the parts and
splitting the rendering again yields exactly the parts of the first split
(split of quote of split equals split), for any combination of quoting and
escaping in s. -/
theorem split_quote_split_roundtrip (s : String) :
    SplitQualified (QuoteQualified (SplitQualified s)) = SplitQualified s := by
  rcases hps : splitQualifiedL s.data with _ | ⟨p, ps⟩
  · have h1 : SplitQualified s = [] := by simp [SplitQualified, hps]
    rw [h1]
    decide
  · have h1 : SplitQualified s = (p :: ps).map String.mk := by
      simp [SplitQualified, hps]
    rw [h1]
    have hne : (p :: ps).map String.mk ≠ [] := by simp
    rw [QuoteQualified, if_neg hne]
    have hdata : ((p :: ps).map String.mk).map String.data = p :: ps := by
      rw [List.map_map]
      have hcomp : (String.data ∘ String.mk) = id := rfl
      simp [hcomp]
    rw [hdata]
    show (splitQualifiedL (quoteQualifiedL (p :: ps))).map String.mk =
      (p :: ps).map String.mk
    have hr := splitQualifiedL_roundtrip s.data
    rw [hps] at hr
    rw [hr]

/-- C5: historyParts splits the base and appends the suffix to the last
part only, leaving schema parts unchanged; an empty split with a non-empty
suffix gives just the suffix, an empty split with an empty suffix gives the
empty sequence; concrete cases for "", "orders" and "public.orders". -/
theorem history_parts_spec :
    (∀ base suffix : String, SplitQualified base = [] →
      HistoryParts base suffix = if suffix = "" then [] else [suffix]) ∧
    (∀ (base suffix : String) (ps : List String) (p : String),
      SplitQualified base = ps ++ [p] →
      HistoryParts base suffix = ps ++ [p ++ suffix]) ∧
    HistoryParts "" "_history" = ["_history"] ∧
    HistoryParts "orders" "_history" = ["orders_history"] ∧
    HistoryParts "public.orders" "_history" = ["public", "orders_history"] := by
  refine ⟨?_, ?_, by decide, by decide, by decide⟩
  · intro base suffix h
    simp [HistoryParts, h]
  · intro base suffix ps p h
    simp only [HistoryParts, h]
    rw [dif_neg (by simp)]
    simp [List.dropLast_concat, List.getLast_concat]

theorem history_parts_spec_witness :
    HistoryParts "public.orders" "_history" = ["public"] ++ ["orders" ++ "_history"] :=
  history_parts_spec.2.1 "public.orders" "_history" ["public"] "orders" (by decide)

/-- C6: splitting the schema-qualified quoted identifier
"Sales"."Order.Detail" yields exactly [Sales, Order.Detail] (the dot inside
quotes is literal), and splitting "Sales""Region"."Orders" yields exactly
[Sales"Region, Orders] (a doubled quote is one literal quote). -/
theorem split_qualified_quoted_edge_cases :
    SplitQualified "\"Sales\".\"Order.Detail\"" = ["Sales", "Order.Detail"] ∧
    SplitQualified "\"Sales\"\"Region\".\"Orders\"" = ["Sales\"Region", "Orders"] :=
  ⟨by decide, by decide⟩

/-- C9: the capture buffer is FIFO and drain-exactly-once: adding a then b
and draining returns [a, b]; a drain after a drain is empty; and a reset
after any adds leaves the next drain empty. -/
theorem buffer_fifo_drain_once :
    (∀ (α : Type) (a b : α), (bufDrain (bufAdd (bufAdd bufNew a) b)).1 = [a, b]) ∧
    (∀ (α : Type) (a b : α),
      (bufDrain (bufDrain (bufAdd (bufAdd bufNew a) b)).2).1 = []) ∧
    (∀ (α : Type) (l : List α), (bufDrain (bufReset l)).1 = []) :=
  ⟨fun _ _ _ => rfl, fun _ _ _ => rfl, fun _ _ => rfl⟩

/-! ## AppendReturningAll: the trailing-semicolon machine -/

/-- Decomposition of one run of `dropTrailingSemis`: it removes a prefix of
semicolons and (once one semicolon was seen) white space, reports whether a
semicolon was seen, and never stops on a semicolon. -/
theorem dropTrailingSemis_decomp (l : List Char) :
    ∀ flag : Bool, ∃ j : List Char,
      l = j ++ (dropTrailingSemis flag l).2 ∧
      (∀ c ∈ j, c = ';' ∨ isUniSpace c = true) ∧
      (dropTrailingSemis flag l).1 = (flag || j.any (fun c => c = ';')) ∧
      (∀ c r, (dropTrailingSemis flag l).2 = c :: r → c ≠ ';') ∧
      (∀ c r, (dropTrailingSemis flag l).2 = c :: r → (flag || !j.isEmpty) = true →
        isUniSpace c = false) := by
  induction l with
  | nil =>
    intro flag
    exact ⟨[], rfl, by simp, by simp [dropTrailingSemis], by simp [dropTrailingSemis],
      by simp [dropTrailingSemis]⟩
  | cons c rest ih =>
    intro flag
    by_cases hc : c = ';'
    · subst hc
      obtain ⟨j, hdec, hmem, hflag, hstop, hsp⟩ := ih true
      have heq : dropTrailingSemis flag (';' :: rest) = dropTrailingSemis true rest := by
        simp [dropTrailingSemis]
      refine ⟨';' :: j, ?_, ?_, ?_, ?_, ?_⟩
      · rw [heq, List.cons_append]; exact congrArg (';' :: ·) hdec
      · intro x hx
        rcases List.mem_cons.mp hx with rfl | hx
        · exact Or.inl rfl
        · exact hmem x hx
      · rw [heq, hflag]; simp
      · intro a r h; exact hstop a r (by rw [← heq]; exact h)
      · intro a r h _
        exact hsp a r (by rw [← heq]; exact h) (by simp)
    · cases flag with
      | false =>
        have heq : dropTrailingSemis false (c :: rest) = (false, c :: rest) := by
          simp [dropTrailingSemis, hc]
        refine ⟨[], by simp [heq], by simp, by simp [heq], ?_, ?_⟩
        · intro a r h
          rw [heq] at h
          injection h with h1 _
          subst h1
          exact hc
        · intro a r h hcond
          rw [heq] at h
          simp at hcond
      | true =>
        by_cases hs : isUniSpace c = true
        · obtain ⟨j, hdec, hmem, hflag, hstop, hsp⟩ := ih true
          have heq : dropTrailingSemis true (c :: rest) = dropTrailingSemis true rest := by
            simp [dropTrailingSemis, hc, hs]
          refine ⟨c :: j, ?_, ?_, ?_, ?_, ?_⟩
          · rw [heq, List.cons_append]; exact congrArg (c :: ·) hdec
          · intro x hx
            rcases List.mem_cons.mp hx with rfl | hx
            · exact Or.inr hs
            · exact hmem x hx
          · rw [heq, hflag]; simp
          · intro a r h; exact hstop a r (by rw [← heq]; exact h)
          · intro a r h _
            exact hsp a r (by rw [← heq]; exact h) (by simp)
        · have heq : dropTrailingSemis true (c :: rest) = (true, c :: rest) := by
            simp [dropTrailingSemis, hc, hs]
          refine ⟨[], by simp [heq], by simp, by simp [heq], ?_, ?_⟩
          · intro a r h
            rw [heq] at h
            injection h with h1 _
            subst h1
            exact hc
          · intro a r h _
            rw [heq] at h
            injection h with h1 _
            subst h1
            simpa using hs

theorem ara_of_trim_nil {q : String} (h : trimU q.data = []) :
    AppendReturningAll q = (q, false) := by
  simp only [AppendReturningAll]
  rw [if_pos h]

theorem ara_of_trim_ne_nil {q : String} (h : trimU q.data ≠ []) :
    AppendReturningAll q =
      (if (dropTrailingSemis false (trimU q.data).reverse).2.reverse = ([] : List Char)
       then (q, false)
       else (String.mk ((dropTrailingSemis false (trimU q.data).reverse).2.reverse ++
          "\nRETURNING *".data ++
          (if (dropTrailingSemis false (trimU q.data).reverse).1 then [';'] else [])),
        true)) := by
  simp only [AppendReturningAll]
  rw [if_neg h]

/-- The reverse of a trimmed text is its right-trimmed-then-reversed form. -/
theorem trimU_reverse (s : List Char) :
    (trimU s).reverse = (s.dropWhile isUniSpace).reverse.dropWhile isUniSpace := by
  simp [trimU]

/-- C10: when appendReturningAll fails (exactly: the trimmed input consists
only of semicolons and white space), it returns the original input string
completely unchanged together with ok=false. -/
theorem append_returning_all_failure_unchanged :
    ∀ q : String,
      ((AppendReturningAll q).2 = false ↔
        ∀ c ∈ trimU q.data, c = ';' ∨ isUniSpace c = true) ∧
      ((AppendReturningAll q).2 = false → (AppendReturningAll q).1 = q) := by
  intro q
  by_cases ht : trimU q.data = []
  · rw [ara_of_trim_nil ht]
    constructor
    · constructor
      · intro _ c hc
        rw [ht] at hc
        cases hc
      · intro _; rfl
    · intro _; rfl
  · obtain ⟨j, hdec, hmem, hflag, hstop, hsp⟩ :=
      dropTrailingSemis_decomp ((trimU q.data).reverse) false
    rw [ara_of_trim_ne_nil ht]
    rcases hr : (dropTrailingSemis false (trimU q.data).reverse).2 with _ | ⟨c, r⟩
    · rw [hr] at hdec
      rw [if_pos (by rfl : ([] : List Char).reverse = [])]
      constructor
      · constructor
        · intro _ c hc
          have hcrev : c ∈ (trimU q.data).reverse := List.mem_reverse.mpr hc
          rw [hdec] at hcrev
          exact hmem c (by simpa using hcrev)
        · intro _; rfl
      · intro _; rfl
    · rw [if_neg (by simp : ¬((c :: r).reverse = ([] : List Char)))]
      constructor
      · constructor
        · intro hfalse; cases hfalse
        · intro hall
          exfalso
          have hcmem : c ∈ trimU q.data := by
            have : c ∈ (trimU q.data).reverse := by
              rw [hdec, hr]; exact List.mem_append.mpr (Or.inr (by simp))
            exact List.mem_reverse.mp this
          have hnotsemi : c ≠ ';' := hstop c r hr
          have hnotspace : isUniSpace c = false := by
            rcases hj : j with _ | ⟨j0, js⟩
            · rw [hj] at hdec
              simp at hdec
              have hhead : ((trimU q.data).reverse).dropWhile isUniSpace =
                  (trimU q.data).reverse := by
                rw [trimU_reverse]
                exact List.dropWhile_idempotent _ _
              rw [hdec, hr] at hhead
              exact dropWhile_head_not hhead
            · exact hsp c r hr (by rw [hj]; simp)
          rcases hall c hcmem with h1 | h1
          · exact hnotsemi h1
          · rw [hnotspace] at h1; cases h1
      · intro hfalse; cases hfalse

theorem append_returning_all_failure_unchanged_witness :
    (AppendReturningAll " ;; ").1 = " ;; " :=
  (append_returning_all_failure_unchanged " ;; ").2
    ((append_returning_all_failure_unchanged " ;; ").1.mpr (by decide))

/-- C7: appendReturningAll trims its input, strips any number of trailing
semicolons, appends a newline followed by RETURNING *, re-appends a single
semicolon if at least one was stripped, and fails when the trimmed
statement is empty; concretely for "DELETE FROM orders WHERE id=$1;" and
for an all-whitespace input. -/
theorem append_returning_all_spec :
    AppendReturningAll "DELETE FROM orders WHERE id=$1;" =
      ("DELETE FROM orders WHERE id=$1\nRETURNING *;", true) ∧
    (∀ q : String, trimU q.data = [] → AppendReturningAll q = (q, false)) ∧
    (∀ q : String, (AppendReturningAll q).2 = true →
      ∃ core junk : List Char,
        trimU q.data = core ++ junk ∧
        (∀ c ∈ junk, c = ';' ∨ isUniSpace c = true) ∧
        core.getLast? ≠ some ';' ∧
        (AppendReturningAll q).1.data =
          core ++ "\nRETURNING *".data ++
            (if junk.any (fun c => c = ';') then [';'] else [])) := by
  refine ⟨by decide, ?_, ?_⟩
  · intro q h
    exact ara_of_trim_nil h
  · intro q hok
    by_cases ht : trimU q.data = []
    · rw [ara_of_trim_nil ht] at hok
      cases hok
    · obtain ⟨j, hdec, hmem, hflag, hstop, hsp⟩ :=
        dropTrailingSemis_decomp ((trimU q.data).reverse) false
      have hout := ara_of_trim_ne_nil ht
      rcases hr : (dropTrailingSemis false (trimU q.data).reverse).2 with _ | ⟨c, r⟩
      · rw [hr] at hout
        rw [hout] at hok
        rw [if_pos (by rfl : ([] : List Char).reverse = [])] at hok
        cases hok
      · rw [hr] at hout hdec
        rw [hflag] at hout
        rw [if_neg (by simp : ¬((c :: r).reverse = ([] : List Char)))] at hout
        refine ⟨(c :: r).reverse, j.reverse, ?_, ?_, ?_, ?_⟩
        · calc trimU q.data = ((trimU q.data).reverse).reverse := by simp
          _ = (j ++ c :: r).reverse := by rw [hdec]
          _ = (c :: r).reverse ++ j.reverse := by simp
        · intro x hx
          exact hmem x (List.mem_reverse.mp hx)
        · rw [List.getLast?_reverse]
          intro hbad
          exact hstop c r hr (Option.some.inj hbad)
        · rw [hout]
          show (c :: r).reverse ++ "\nRETURNING *".data ++
              (if (false || j.any fun c => decide (c = ';')) = true then [';'] else []) =
            (c :: r).reverse ++ "\nRETURNING *".data ++
              (if j.reverse.any (fun c => c = ';') then [';'] else [])
          rw [List.any_reverse]
          simp

theorem append_returning_all_spec_witness :
    AppendReturningAll "   " = ("   ", false) :=
  append_returning_all_spec.2.1 "   " (by decide)

theorem stripAliasCut_eq_cutIdx :
    ∀ (l : List Char) (inQ : Bool) (seen : List Char),
      stripAliasCut l inQ seen = (cutIdx l inQ).map (fun i => seen ++ l.take i) := by
  intro l
  induction l with
  | nil => intro inQ seen; rfl
  | cons c rest ih =>
    intro inQ seen
    by_cases hq : c = '"'
    · subst hq
      rw [show stripAliasCut ('"' :: rest) inQ seen =
            stripAliasCut rest (!inQ) (seen ++ ['"']) by simp [stripAliasCut]]
      rw [ih (!inQ) (seen ++ ['"'])]
      rw [show cutIdx ('"' :: rest) inQ = (cutIdx rest (!inQ)).map (· + 1) by
        simp [cutIdx]]
      cases cutIdx rest (!inQ) with
      | none => rfl
      | some i => simp
    · by_cases hs : (!inQ && isUniSpace c) = true
      · rw [show stripAliasCut (c :: rest) inQ seen = some seen by
          simp [stripAliasCut, hq, hs]]
        rw [show cutIdx (c :: rest) inQ = some 0 by simp [cutIdx, hq, hs]]
        simp
      · rw [show stripAliasCut (c :: rest) inQ seen =
              stripAliasCut rest inQ (seen ++ [c]) by
          simp [stripAliasCut, hq, hs]]
        rw [ih inQ (seen ++ [c])]
        rw [show cutIdx (c :: rest) inQ = (cutIdx rest inQ).map (· + 1) by
          simp [cutIdx, hq, hs]]
        cases cutIdx rest inQ with
        | none => rfl
        | some i => simp

/-- C4 counterexample: the claim says one trailing comma is dropped, but
StripAlias drops every trailing comma, so on "orders,," they disagree. -/
theorem strip_alias_one_comma_counterexample :
    StripAlias "orders,," = "orders" ∧
    stripAliasSpecOneComma ("orders,,".data) = "orders,".data ∧
    stripAliasL ("orders,,".data) ≠ stripAliasSpecOneComma ("orders,,".data) :=
  ⟨by decide, by decide, by decide⟩

/-- C4 amended: the alias-stripping reduces the captured target to the
table identifier by trimming, dropping all trailing commas, and cutting at
the first unquoted white-space run (quote-tracking, so a quoted identifier
containing a literal space is kept whole); and
ParseDML "UPDATE orders o SET amount=amount+1 WHERE id=$1" succeeds with
operation UPDATE and table "orders". -/
theorem strip_alias_amended :
    (∀ s : String, stripAliasL s.data = stripAliasSpecAllCommas s.data) ∧
    StripAlias "\"order detail\" od" = "\"order detail\"" ∧
    ParseDML "UPDATE orders o SET amount=amount+1 WHERE id=$1" =
      some ⟨"UPDATE", "orders", false⟩ := by
  refine ⟨?_, by decide, by decide⟩
  intro s
  show (match stripAliasCut (dropTrailingCommas (trimU s.data)) false [] with
        | some pre => trimU pre
        | none => dropTrailingCommas (trimU s.data)) =
    stripAliasSpecAllCommas s.data
  rw [stripAliasCut_eq_cutIdx]
  show _ = (match cutIdx (dropTrailingCommas (trimU s.data)) false with
            | some i => trimU ((dropTrailingCommas (trimU s.data)).take i)
            | none => dropTrailingCommas (trimU s.data))
  cases cutIdx (dropTrailingCommas (trimU s.data)) false with
  | none => rfl
  | some i => simp

/-! ## Claim C8: RETURNING detection machinery -/

theorem uniSpace_props : ∀ c ∈ uniSpaceChars, foldC c = c ∧ isWordChar c = false := by
  decide

theorem isUniSpace_props {c : Char} (h : isUniSpace c = true) :
    foldC c = c ∧ isWordChar c = false :=
  uniSpace_props c (List.mem_of_elem_eq_true h)

theorem returning_word_chars : ∀ k ∈ ("returning".data), isWordChar k = true := by
  decide

theorem foldC_space_ne_word {c k : Char} (hc : isUniSpace c = true)
    (hk : isWordChar k = true) : foldC c ≠ k := by
  intro h
  obtain ⟨hfold, hword⟩ := isUniSpace_props hc
  rw [hfold] at h
  rw [h, hk] at hword
  cases hword

theorem kwCI_append_space {t : List Char} (ht : ∀ c ∈ t, isUniSpace c = true) :
    ∀ (ks u : List Char), (∀ k ∈ ks, isWordChar k = true) →
      kwCI ks (u ++ t) = (kwCI ks u).map (fun p => (p.1, p.2 ++ t)) := by
  intro ks
  induction ks with
  | nil => intro u _; rfl
  | cons k ks ih =>
    intro u hk
    cases u with
    | nil =>
      show kwCI (k :: ks) t = Option.map _ none
      cases t with
      | nil => rfl
      | cons c t2 =>
        have hc : isUniSpace c = true := ht c (by simp)
        have : foldC c ≠ k := foldC_space_ne_word hc (hk k (by simp))
        simp [kwCI, this]
    | cons c u2 =>
      by_cases hf : foldC c = k
      · have hrec := ih u2 (fun x hx => hk x (by simp [hx]))
        show kwCI (k :: ks) (c :: (u2 ++ t)) = _
        simp only [kwCI, if_pos hf]
        rw [hrec]
        cases kwCI ks u2 with
        | none => rfl
        | some p => rfl
      · show kwCI (k :: ks) (c :: (u2 ++ t)) = _
        simp [kwCI, hf]

theorem returningHere_append_space {t : List Char}
    (ht : ∀ c ∈ t, isUniSpace c = true) (u : List Char) :
    returningHere (u ++ t) = returningHere u := by
  rw [returningHere, returningHere,
    kwCI_append_space ht ("returning".data) u returning_word_chars]
  cases hk : kwCI ("returning".data) u with
  | none => rfl
  | some p =>
    show wordBoundary (p.2 ++ t) = wordBoundary p.2
    cases hp : p.2 with
    | nil =>
      show wordBoundary t = wordBoundary []
      cases t with
      | nil => rfl
      | cons c t2 =>
        have := (isUniSpace_props (ht c (by simp))).2
        simp [wordBoundary, this]
    | cons d r => rfl

theorem returningHere_space_head {c : Char} (hc : isUniSpace c = true)
    (s : List Char) : returningHere (c :: s) = false := by
  have : foldC c ≠ 'r' := foldC_space_ne_word hc (by decide)
  simp [returningHere, kwCI, this]

theorem hasRetAux_all_space {t : List Char} (ht : ∀ c ∈ t, isUniSpace c = true) :
    ∀ b, hasRetAux b t = false := by
  induction t with
  | nil => intro b; rfl
  | cons c t2 ih =>
    intro b
    have hc : isUniSpace c = true := ht c (by simp)
    show ((!b && returningHere (c :: t2)) || hasRetAux (isWordChar c) t2) = false
    rw [returningHere_space_head hc, ih (fun x hx => ht x (by simp [hx]))]
    simp

theorem hasRetAux_append_space {t : List Char} (ht : ∀ c ∈ t, isUniSpace c = true) :
    ∀ (s : List Char) (b : Bool), hasRetAux b (s ++ t) = hasRetAux b s := by
  intro s
  induction s with
  | nil =>
    intro b
    show hasRetAux b t = hasRetAux b []
    rw [hasRetAux_all_space ht b]
    rfl
  | cons c s2 ih =>
    intro b
    show ((!b && returningHere (c :: s2 ++ t)) || hasRetAux (isWordChar c) (s2 ++ t)) =
      ((!b && returningHere (c :: s2)) || hasRetAux (isWordChar c) s2)
    rw [show c :: s2 ++ t = (c :: s2) ++ t from rfl,
      returningHere_append_space ht (c :: s2), ih (isWordChar c)]

theorem hasRet_drop_space_head {c : Char} (hc : isUniSpace c = true) (s : List Char) :
    hasRetAux false (c :: s) = hasRetAux false s := by
  show ((!false && returningHere (c :: s)) || hasRetAux (isWordChar c) s) = hasRetAux false s
  rw [returningHere_space_head hc, (isUniSpace_props hc).2]
  simp

theorem hasRet_dropWhile (s : List Char) :
    hasRetAux false (s.dropWhile isUniSpace) = hasRetAux false s := by
  induction s with
  | nil => rfl
  | cons c s2 ih =>
    by_cases hc : isUniSpace c = true
    · rw [List.dropWhile_cons, if_pos hc, ih, hasRet_drop_space_head hc]
    · rw [List.dropWhile_cons, if_neg hc]

/-- Trimming does not change whether the text contains a word-boundary
occurrence of `returning`. -/
theorem hasReturningWord_trim (s : List Char) :
    hasReturningWord (trimU s) = hasReturningWord s := by
  rw [hasReturningWord, hasReturningWord, ← hasRet_dropWhile s]
  set y := s.dropWhile isUniSpace with hy
  have hdecomp : y = y.rdropWhile isUniSpace ++ (y.reverse.takeWhile isUniSpace).reverse := by
    rw [List.rdropWhile]
    have h1 : y.reverse = y.reverse.takeWhile isUniSpace ++ y.reverse.dropWhile isUniSpace :=
      (List.takeWhile_append_dropWhile isUniSpace y.reverse).symm
    calc y = y.reverse.reverse := by simp
    _ = (y.reverse.takeWhile isUniSpace ++ y.reverse.dropWhile isUniSpace).reverse := by
        rw [← h1]
    _ = (y.reverse.dropWhile isUniSpace).reverse ++ (y.reverse.takeWhile isUniSpace).reverse := by
        rw [List.reverse_append]
  have hsp : ∀ c ∈ (y.reverse.takeWhile isUniSpace).reverse, isUniSpace c = true := by
    intro c hc
    exact List.mem_takeWhile_imp (List.mem_reverse.mp hc)
  calc hasRetAux false (trimU s)
      = hasRetAux false (y.rdropWhile isUniSpace) := by rw [trimU_eq_rdrop]
    _ = hasRetAux false (y.rdropWhile isUniSpace ++ (y.reverse.takeWhile isUniSpace).reverse) := by
        rw [hasRetAux_append_space hsp]
    _ = hasRetAux false y := by rw [← hdecomp]

theorem parseDML_hasReturning {q : String} {d : DML} (h : ParseDML q = some d) :
    d.hasReturning = hasReturningWord (trimU q.data) := by
  simp only [ParseDML] at h
  split at h
  · injection h with h2; subst h2; rfl
  · split at h
    · injection h with h2; subst h2; rfl
    · split at h
      · injection h with h2; subst h2; rfl
      · cases h

/-- C8: for every recognized DML statement, the hasReturning flag is true
exactly when a case-insensitive word-boundary occurrence of `returning`
appears anywhere in the statement text; in particular
UPDATE orders SET note='returning soon' is recognized with
hasReturning=true. -/
theorem has_returning_over_approximate :
    (∀ (q : String) (d : DML), ParseDML q = some d →
      d.hasReturning = hasReturningWord q.data) ∧
    ParseDML "UPDATE orders SET note='returning soon'" =
      some ⟨"UPDATE", "orders", true⟩ := by
  refine ⟨?_, by decide⟩
  intro q d h
  rw [parseDML_hasReturning h, hasReturningWord_trim]

theorem has_returning_over_approximate_witness :
    (⟨"UPDATE", "orders", true⟩ : DML).hasReturning =
      hasReturningWord ("UPDATE orders SET note='returning soon'".data) :=
  has_returning_over_approximate.1 "UPDATE orders SET note='returning soon'"
    ⟨"UPDATE", "orders", true⟩ (by decide)

/-! ## Claims C1 and C3: the orchestrator -/

theorem foldl_bufAdd_map {α β : Type} (f : β → α) :
    ∀ (ms : List β) (buf : List α),
      ms.foldl (fun b m => bufAdd b (f m)) buf = buf ++ ms.map f := by
  intro ms
  induction ms with
  | nil => intro buf; simp
  | cons m ms ih =>
    intro buf
    show ms.foldl (fun b m => bufAdd b (f m)) (bufAdd buf (f m)) = _
    rw [ih (bufAdd buf (f m))]
    simp [bufAdd]

theorem scanAll_ok_length {V : Type} {jd : String → Option V} {rm : RowsModel V}
    {ms : List (RowImage V)} {n : Nat}
    (h : scanAll jd rm = Except.ok (ms, n)) : n = ms.length := by
  simp only [scanAll] at h
  split at h
  · cases h
  · split at h
    · cases h
    · split at h
      · cases h
      · split at h
        · cases h
        · injection h with h2
          injection h2 with h3 h4
          rw [h3] at h4
          exact h4.symm

/-- C1: for every recognized INSERT/UPDATE/DELETE with a RETURNING
classification, ExecContext re-issues the statement as a row-returning
query; when all rows materialize it buffers exactly one capture entry per
returned row (the row image in before for DELETE, in after for
INSERT/UPDATE, all entries carrying the same metadata), and the returned
result's RowsAffected equals the number of materialized rows (LastInsertId
stays unsupported). -/
theorem exec_returning_captures_each_row {V : Type} (env : ExecEnv V)
    (buf : List (Entry V)) (q : String) (args : List V) (dml : DML)
    (rm : RowsModel V) (ms : List (RowImage V)) (n : Nat)
    (hp : ParseDML q = some dml) (hr : dml.hasReturning = true)
    (hq : env.queryOutcome = Except.ok rm)
    (hs : scanAll env.jsonDec rm = Except.ok (ms, n)) :
    txExecContext env buf q args =
      (buf ++ ms.map (mkCaptureEntry dml env.meta), Except.ok (newAffectedRows n)) ∧
    n = ms.length ∧
    (newAffectedRows n).rowsAffected = Except.ok (n : Int) ∧
    (newAffectedRows n).lastInsertId = Except.error "not supported" ∧
    (∀ m ∈ ms, (mkCaptureEntry dml env.meta m).meta = env.meta) ∧
    (dml.op = "DELETE" → ∀ m ∈ ms,
      (mkCaptureEntry dml env.meta m).before = some m ∧
      (mkCaptureEntry dml env.meta m).after = none) ∧
    (dml.op ≠ "DELETE" → ∀ m ∈ ms,
      (mkCaptureEntry dml env.meta m).after = some m ∧
      (mkCaptureEntry dml env.meta m).before = none) := by
  refine ⟨?_, scanAll_ok_length hs, rfl, rfl, ?_, ?_, ?_⟩
  · simp only [txExecContext, hp, hr, hq, hs]
    rw [foldl_bufAdd_map]
    simp
  · intro m _
    rw [mkCaptureEntry]
    by_cases hop : dml.op = "DELETE"
    · rw [if_pos hop]
    · rw [if_neg hop]
  · intro hop m _
    rw [mkCaptureEntry, if_pos hop]
    exact ⟨rfl, rfl⟩
  · intro hop m _
    rw [mkCaptureEntry, if_neg hop]
    exact ⟨rfl, rfl⟩

theorem exec_returning_captures_each_row_witness :
    txExecContext c1Env [] "DELETE FROM orders WHERE id=$1 RETURNING *" [] =
      ([] ++ ([[("id", Val.prim 1)], [("id", Val.prim 2)]].map
        (mkCaptureEntry ⟨"DELETE", "orders", true⟩ c1Env.meta)),
       Except.ok (newAffectedRows 2)) :=
  (exec_returning_captures_each_row c1Env [] "DELETE FROM orders WHERE id=$1 RETURNING *"
    [] ⟨"DELETE", "orders", true⟩ c1EnvRows
    [[("id", Val.prim 1)], [("id", Val.prim 2)]] 2
    (by decide) rfl rfl (by decide)).1

theorem flushLoop_prefix_fail {V : Type} (env : FlushEnv V) (e : Entry V)
    (post : List (Entry V)) (msg : String)
    (he : entryStep env e = Except.error msg) :
    ∀ (pre : List (Entry V)) (acc : List (InsertCall V)),
      (∀ x ∈ pre, ∃ c, entryStep env x = Except.ok c) →
      flushLoop env (pre ++ e :: post) acc =
        (acc ++ pre.filterMap (fun x => (entryStep env x).toOption), some msg) := by
  intro pre
  induction pre with
  | nil =>
    intro acc _
    show flushLoop env (e :: post) acc = _
    simp [flushLoop, he]
  | cons x pre ih =>
    intro acc hok
    obtain ⟨c, hc⟩ := hok x (by simp)
    show flushLoop env (x :: (pre ++ e :: post)) acc = _
    simp only [flushLoop, hc]
    rw [ih (acc ++ [c]) (fun y hy => hok y (by simp [hy]))]
    simp [List.filterMap_cons, hc, Except.toOption]

/-- C3: if flushing the capture buffer fails on some entry, the flush
stops immediately: no entry after the failing one is written (only the
successful prefix's inserts are), the error is returned to the caller, and
the buffer remains drained (a subsequent drain returns no entries). -/
theorem flush_failure_stops_and_drains {V : Type} (env : FlushEnv V)
    (st : TxState V) (pre : List (Entry V)) (e : Entry V) (post : List (Entry V))
    (msg : String) (hbuf : st.buf = pre ++ e :: post)
    (hok : ∀ x ∈ pre, ∃ c, entryStep env x = Except.ok c)
    (he : entryStep env e = Except.error msg) :
    (txFlush env st).2 = some msg ∧
    (txFlush env st).1.buf = [] ∧
    (bufDrain (txFlush env st).1.buf).1 = [] ∧
    (txFlush env st).1.written =
      st.written ++ pre.filterMap (fun x => (entryStep env x).toOption) := by
  have hne : ¬((pre ++ e :: post).isEmpty = true) := by
    cases pre with
    | nil => intro hx; cases hx
    | cons a l => intro hx; cases hx
  have hloop := flushLoop_prefix_fail env e post msg he pre [] hok
  simp only [txFlush, bufDrain, hbuf]
  rw [if_neg hne, hloop]
  refine ⟨rfl, rfl, rfl, by simp⟩

theorem flush_failure_stops_and_drains_witness :
    (txFlush c3Env { buf := [c3Entry1, c3Entry2], written := [] }).2 =
      some "gostry: failed to marshal before: boom" :=
  (flush_failure_stops_and_drains c3Env
    { buf := [c3Entry1, c3Entry2], written := [] }
    [c3Entry1] c3Entry2 [] "gostry: failed to marshal before: boom" rfl
    (by intro x hx; rw [List.mem_singleton.mp hx]; exact ⟨_, rfl⟩)
    (by decide)).1

end Gostry
